import Mathlib

/-
Verification of the ecc2cursor translation engine against its specification.

Strings are modelled as lists of characters (`Str`), which matches the
JavaScript view of a string as a sequence of code units.  Each definition
below is a direct shallow embedding of a function from the repository
(`src/lib/constants.ts`, `src/lib/scanner.ts`, `src/lib/transform.ts`,
`src/lib/translators/mcp.ts`, `src/lib/translators/hooks.ts`,
`src/lib/translators/agents.ts`, `src/sync.ts`); the source file and
function are named in each doc comment.
-/

abbrev Str := List Char

/-- Convert a Lean string literal into the character-list model. -/
def toStr (s : String) : Str := s.data

/-- JavaScript word character class `\w` = `[A-Za-z0-9_]`. -/
def isWordChar (c : Char) : Bool :=
  (97 ≤ c.toNat && c.toNat ≤ 122) || (65 ≤ c.toNat && c.toNat ≤ 90) ||
  (48 ≤ c.toNat && c.toNat ≤ 57) || c.toNat = 95

/-- JavaScript whitespace class `\s` (WhiteSpace plus LineTerminator). -/
def isJsWs (c : Char) : Bool :=
  c.toNat = 32 || c.toNat = 9 || c.toNat = 10 || c.toNat = 11 || c.toNat = 12 ||
  c.toNat = 13 || c.toNat = 160 || c.toNat = 0x1680 ||
  (0x2000 ≤ c.toNat && c.toNat ≤ 0x200A) ||
  c.toNat = 0x2028 || c.toNat = 0x2029 || c.toNat = 0x202F || c.toNat = 0x205F ||
  c.toNat = 0x3000 || c.toNat = 0xFEFF

/-- JavaScript line terminators (the characters `.` does not match). -/
def isLineTerm (c : Char) : Bool :=
  c.toNat = 10 || c.toNat = 13 || c.toNat = 0x2028 || c.toNat = 0x2029

/- ── Naming policy and installed-set scanner ──────────────────────────────
   From `src/lib/constants.ts` (`prefixName`) and `src/lib/scanner.ts`
   (`scanDir`, `scanDirectory`).  A directory that may or may not exist is
   an `Option (List Str)` of its entry names. -/

/-- `prefixName(prefix, name)` from `src/lib/constants.ts`:
    `prefix ? prefix + "-" + name : name` (string truthiness = non-empty). -/
def prefixName (pre nm : Str) : Str :=
  if pre = [] then nm else pre ++ '-' :: nm

/-- `scanDir(dir, prefix)` from `src/lib/scanner.ts`: empty when the prefix
    is empty or the directory does not exist, otherwise the entries whose
    name starts with `prefix + "-"`. -/
def scanDir (dir : Option (List Str)) (pre : Str) : List Str :=
  match dir with
  | none => []
  | some entries =>
    if pre = [] then []
    else entries.filter (fun f => (pre ++ ['-']).isPrefixOf f)

/-- The three listable containers of a `.cursor` target directory
    (`skills/`, `agents/`, `commands/`), each possibly missing. -/
structure CursorState where
  skills : Option (List Str)
  agents : Option (List Str)
  commands : Option (List Str)
deriving DecidableEq

/-- `ScanResult` from `src/lib/scanner.ts` (without the `cursorDir` label). -/
structure ScanResult where
  skills : List Str
  agents : List Str
  commands : List Str
  totalFiles : Nat
deriving DecidableEq

/-- `scanDirectory(cursorDir, prefix)` from `src/lib/scanner.ts`. -/
def scanDirectory (st : CursorState) (pre : Str) : ScanResult :=
  let sk := scanDir st.skills pre
  let ag := scanDir st.agents pre
  let cm := scanDir st.commands pre
  { skills := sk, agents := ag, commands := cm
    totalFiles := sk.length + ag.length + cm.length }

/-- `CleanResult` from `src/sync.ts`. -/
structure CleanResult where
  skills : List Str
  agents : List Str
  commands : List Str
  totalRemoved : Nat
deriving DecidableEq

/-- Remove the entries matching `pre ++ "-"` from one container, returning
    the updated container and the removed names (helper for `runClean`). -/
def cleanDir (dir : Option (List Str)) (pre : Str) : Option (List Str) × List Str :=
  match dir with
  | none => (none, [])
  | some entries =>
    (some (entries.filter (fun f => !((pre ++ ['-']).isPrefixOf f))),
     entries.filter (fun f => (pre ++ ['-']).isPrefixOf f))

/-- `runClean(ctx, prefix)` from `src/sync.ts`: no-op returning the all-empty
    result when the prefix is empty; otherwise removes every prefix-matched
    skill directory, agent file and command file. -/
def runClean (st : CursorState) (pre : Str) : CursorState × CleanResult :=
  if pre = [] then
    (st, { skills := [], agents := [], commands := [], totalRemoved := 0 })
  else
    let (sk', skRem) := cleanDir st.skills pre
    let (ag', agRem) := cleanDir st.agents pre
    let (cm', cmRem) := cleanDir st.commands pre
    ({ skills := sk', agents := ag', commands := cm' },
     { skills := skRem, agents := agRem, commands := cmRem
       totalRemoved := skRem.length + agRem.length + cmRem.length })

/- ── Service registry merger ──────────────────────────────────────────────
   From `src/lib/translators/mcp.ts`.  A registry is an association list in
   insertion order (the JavaScript object holding `mcpServers`); keys are
   unique, lookup is first-match. -/

/-- `ServerConfig` from `src/lib/translators/mcp.ts`; the index signature
    `[key: string]: unknown` is modelled by `extra`. -/
structure ServerConfig where
  command : Option Str
  args : Option (List Str)
  env : Option (List (Str × Str))
  description : Option Str
  extra : List (Str × Str)
deriving DecidableEq

/-- `AvailableServer` from `src/lib/translators/mcp.ts`. -/
structure AvailableServer where
  name : Str
  description : Str
  config : ServerConfig
deriving DecidableEq

/-- `McpSelection` from `src/sync.ts`: `'none' | 'all' | string[]`. -/
inductive McpSelection where
  | none : McpSelection
  | all : McpSelection
  | list (names : List Str) : McpSelection
deriving DecidableEq

/-- `resolveSelectedServers(available, selection)` from
    `src/lib/translators/mcp.ts`. -/
def resolveSelectedServers (available : List AvailableServer) :
    McpSelection → List AvailableServer
  | .none => []
  | .all => available
  | .list ns => available.filter (fun s => ns.contains s.name)

/-- First-match association-list lookup (JavaScript object key access). -/
def lookupReg (reg : List (Str × ServerConfig)) (k : Str) : Option ServerConfig :=
  match reg with
  | [] => Option.none
  | (k', v) :: r => if k' = k then some v else lookupReg r k

/-- The candidate clean-up inside `translateMcp`: drop `description`, alias
    the command `npx` to `bunx`. -/
def cleanConfig (c : ServerConfig) : ServerConfig :=
  let c1 := { c with description := Option.none }
  if c1.command = some (toStr "npx") then { c1 with command := some (toStr "bunx") } else c1

/-- One iteration of the install loop of `translateMcp`: skip a name already
    present, otherwise count it as added and (when not a dry run) append the
    cleaned definition. -/
def mcpStep (dryRun : Bool) (acc : List (Str × ServerConfig) × Nat × Nat)
    (srv : AvailableServer) : List (Str × ServerConfig) × Nat × Nat :=
  match lookupReg acc.1 srv.name with
  | some _ => (acc.1, acc.2.1, acc.2.2 + 1)
  | Option.none =>
    ((if dryRun then acc.1 else acc.1 ++ [(srv.name, cleanConfig srv.config)]),
     acc.2.1 + 1, acc.2.2)

/-- `translateMcp` from `src/lib/translators/mcp.ts`, as a pure function of
    the discovered available servers and the registry read from the target
    `mcp.json`.  Returns the resulting registry and the (added, skipped)
    counts.  The file is written back only when something was added and the
    run is not dry; in this state-passing model that is the same as
    returning the fold's registry, which is unchanged in those cases. -/
def translateMcp (available : List AvailableServer) (reg : List (Str × ServerConfig))
    (dryRun : Bool) (sel : McpSelection) : List (Str × ServerConfig) × Nat × Nat :=
  if available.isEmpty then (reg, 0, 0)
  else
    match sel with
    | McpSelection.none => (reg, 0, 0)
    | _ => (resolveSelectedServers available sel).foldl (mcpStep dryRun) (reg, 0, 0)

/- ── Hook translator ──────────────────────────────────────────────────────
   From `src/lib/translators/hooks.ts`.  The source tree is reduced to the
   one fact the translator inspects: the content of `hooks/hooks.json` when
   that file exists. -/

/-- The part of a cloned source tree the hook translator looks at. -/
structure SourceTree where
  hooksJson : Option Str
deriving DecidableEq

/-- An entry of `EXTRACTED_RULES` from `src/lib/translators/hooks.ts`. -/
structure ExtractedRule where
  filename : Str
  title : Str
  content : Str
deriving DecidableEq

/-- `EXTRACTED_RULES` from `src/lib/translators/hooks.ts`, verbatim. -/
def extractedRules : List ExtractedRule :=
  [ { filename := toStr "no-console-log.md"
      title := toStr "No console.log in Production Code"
      content := toStr "# No console.log in Production Code\n\nRemove all `console.log` statements before committing.\n\n## Why\n- Clutters production output\n- May leak sensitive data\n- Indicates incomplete debugging\n\n## Instead\n- Use a proper logger (e.g., `winston`, `pino`) for server-side logging\n- Use conditional debug logging: `if (process.env.NODE_ENV === \x27development\x27)`\n- Remove debug logs entirely before committing\n\n## Checklist\n- [ ] No `console.log` in committed code\n- [ ] Use structured logging for production\n- [ ] Debug logging gated behind environment check\n" },
    { filename := toStr "review-before-push.md"
      title := toStr "Review Changes Before Pushing"
      content := toStr "# Review Changes Before Pushing\n\nAlways review your changes before pushing to remote.\n\n## Before `git push`\n1. Run `git diff` to review unstaged changes\n2. Run `git diff --staged` to review staged changes\n3. Run `git log --oneline -5` to verify commit history\n4. Ensure no secrets, debug code, or incomplete work is included\n\n## Checklist\n- [ ] All changes are intentional\n- [ ] No hardcoded secrets or API keys\n- [ ] No console.log or debug statements\n- [ ] Commit messages follow conventional format\n- [ ] Tests pass locally\n" },
    { filename := toStr "minimal-docs.md"
      title := toStr "Minimal Documentation Files"
      content := toStr "# Minimal Documentation Files\n\nAvoid creating unnecessary documentation files. Consolidate documentation in existing files.\n\n## Guidelines\n- Use the project\x27s README.md for documentation\n- Don\x27t create random .md or .txt files for notes\n- Keep documentation close to the code it describes\n- Use code comments for implementation details\n- Use JSDoc/docstrings for API documentation\n\n## Acceptable documentation files\n- README.md — project overview\n- CONTRIBUTING.md — contribution guidelines\n- CHANGELOG.md — version history\n- API documentation generated from code\n" } ]

/-- Target-relative path `skills/<skillName>/rules/<filename>` used by
    `translateHooks`. -/
def hookRulePath (skillName filename : Str) : Str :=
  toStr "skills/" ++ skillName ++ toStr "/rules/" ++ filename

/-- `translateHooks(repoDir, ctx, prefix, dryRun)` from
    `src/lib/translators/hooks.ts`.  Returns the files written (path and
    content; empty under a dry run) and the list of relative paths the
    function reports. -/
def translateHooks (tree : SourceTree) (pre : Str) (dryRun : Bool) :
    List (Str × Str) × List Str :=
  match tree.hooksJson with
  | Option.none => ([], [])
  | some _ =>
    let skillName := prefixName pre (toStr "coding-standards")
    ((if dryRun then []
      else extractedRules.map (fun r => (hookRulePath skillName r.filename, r.content))),
     extractedRules.map (fun r => hookRulePath skillName r.filename))

/- ── Agent translator (file-system effect) ────────────────────────────────
   From `src/lib/translators/agents.ts`.  The per-file content computation
   (frontmatter rebuild, description override, body rewrite) is taken as a
   parameter `render : filename → raw → (installedName, content)`; every
   theorem below quantifies over it, so the results hold for the actual
   computation.  What is modelled exactly is the effect structure: the
   `readdir` guard, the `.md` filter, the skip-set check, and — the point of
   interest — the `mkdir(ctx.agentsDir, { recursive: true })` call that is
   NOT guarded by `dryRun` (every other translator guards its directory
   creation with `if (!dryRun)`). -/

/-- `SKIP_FILES` from `src/lib/constants.ts`. -/
def skipFiles : List Str :=
  [ toStr "commands/setup-pm.md", toStr "commands/checkpoint.md",
    toStr "commands/verify.md", toStr "commands/learn.md",
    toStr "commands/skill-create.md", toStr "commands/instinct-status.md",
    toStr "commands/instinct-import.md", toStr "commands/instinct-export.md",
    toStr "commands/evolve.md", toStr "rules/common/hooks.md",
    toStr "skills/continuous-learning", toStr "skills/continuous-learning-v2",
    toStr "skills/strategic-compact", toStr "skills/eval-harness",
    toStr "skills/verification-loop", toStr "skills/iterative-retrieval",
    toStr "skills/coding-standards", toStr "skills/configure-ecc" ]

/-- The slice of the target tree `translateAgents` touches: whether
    `ctx.agentsDir` exists, and the files inside it. -/
structure TargetFS where
  agentsDirExists : Bool
  agentsFiles : List (Str × Str)
deriving DecidableEq

/-- Insert or overwrite a key in an association list (JavaScript object
    update / unconditional file overwrite). -/
def upsert (m : List (Str × Str)) (k v : Str) : List (Str × Str) :=
  match m with
  | [] => [(k, v)]
  | (k', v') :: r => if k' = k then (k, v) :: r else (k', v') :: upsert r k v

/-- Write one agent file into the modelled target tree. -/
def writeAgentFile (fs : TargetFS) (nm content : Str) : TargetFS :=
  { fs with agentsFiles := upsert fs.agentsFiles nm content }

/-- `translateAgents(repoDir, ctx, prefix, dryRun)` from
    `src/lib/translators/agents.ts`, over the source listing of `agents/`
    (`none` when `readdir` fails) and the modelled target tree. -/
def translateAgentsM (render : Str → Str → Str × Str)
    (src : Option (List (Str × Str))) (fs : TargetFS) (dryRun : Bool) :
    TargetFS × List Str :=
  match src with
  | Option.none => (fs, [])
  | some entries =>
    let files := entries.filter (fun e => (toStr ".md").isSuffixOf e.1)
    let fs1 : TargetFS := { fs with agentsDirExists := true }
    files.foldl
      (fun acc e =>
        if skipFiles.contains (toStr "agents/" ++ e.1) then acc
        else
          let nc := render e.1 e.2
          ((if dryRun then acc.1 else writeAgentFile acc.1 (nc.1 ++ toStr ".md") nc.2),
           acc.2 ++ [toStr "agents/" ++ nc.1 ++ toStr ".md"]))
      (fs1, [])

/- ── Header codec ─────────────────────────────────────────────────────────
   From `src/lib/transform.ts`.  `parseFrontmatter` matches the anchored
   regex  `^---\s*\n([\s\S]*?)\n---\s*\n?([\s\S]*)$`  with JavaScript
   backtracking semantics:

   * after the literal `---`, the greedy `\s*` tries the longest run of
     whitespace first and backtracks until the next character is `\n`;
   * the lazy group 1 stops at the first following occurrence of `\n---`;
   * after that occurrence, `\s*` greedily eats the maximal whitespace run;
     `\n?` and `([\s\S]*)$` then always succeed, so the body is simply what
     remains after that run.

   `fmTry` implements the backtracking over the `\s*\n` split point `j`
   (tried from the length of the whitespace run down to 0), `splitOnFirst`
   the lazy search for `\n---`. -/

/-- Length of the leading JavaScript-whitespace run. -/
def wsRunLen : Str → Nat
  | [] => 0
  | c :: t => if isJsWs c then wsRunLen t + 1 else 0

/-- Split a string at the first occurrence of `needle`, returning the part
    before it and the part after it. -/
def splitOnFirst (needle : Str) : Str → Option (Str × Str)
  | [] => if needle.isPrefixOf [] then some ([], []) else Option.none
  | c :: t =>
    if needle.isPrefixOf (c :: t) then some ([], (c :: t).drop needle.length)
    else (splitOnFirst needle t).map (fun p => (c :: p.1, p.2))

/-- The literal `\n---`. -/
def nlDashes : Str := '\n' :: ['-', '-', '-']

/-- Finish a frontmatter match at split point `j`: the character at `j`
    must be the `\n` of `\s*\n`; group 1 then runs to the first `\n---`;
    the body is what follows the closing delimiter and its trailing
    whitespace run.  On failure, backtrack to a smaller `j`. -/
def fmTry (rest : Str) : Nat → Option (Str × Str)
  | 0 =>
    if (rest.headD ' ') = '\n' then
      match splitOnFirst nlDashes (rest.drop 1) with
      | some g => some (g.1, g.2.drop (wsRunLen g.2))
      | Option.none => Option.none
    else Option.none
  | j + 1 =>
    if ((rest.drop (j + 1)).headD ' ') = '\n' then
      match splitOnFirst nlDashes (rest.drop (j + 2)) with
      | some g => some (g.1, g.2.drop (wsRunLen g.2))
      | Option.none => fmTry rest j
    else fmTry rest j

/-- The whole-content regex match of `parseFrontmatter`: `none` when no
    delimiter pair is found, otherwise the raw frontmatter block (group 1)
    and the body (group 2). -/
def fmMatch (content : Str) : Option (Str × Str) :=
  if (toStr "---").isPrefixOf content then
    fmTry (content.drop 3) (wsRunLen (content.drop 3))
  else Option.none

/-- JavaScript `String.prototype.split(c)`. -/
def splitOnChar (c : Char) : Str → List Str
  | [] => [[]]
  | a :: t =>
    if a = c then [] :: splitOnChar c t
    else
      match splitOnChar c t with
      | h :: r => (a :: h) :: r
      | [] => [[a]]

/-- JavaScript `String.prototype.trim()`. -/
def jsTrim (s : Str) : Str :=
  ((s.dropWhile isJsWs).reverse.dropWhile isJsWs).reverse

/-- The per-line regex `^(\w[\w-]*):\s*(.*)$` of `parseFrontmatter`: the
    key is the maximal run of word/hyphen characters starting with a word
    character, which must be followed directly by `:`; `\s*` then greedily
    eats whitespace, and `(.*)$` succeeds only when the remainder contains
    no line terminator. -/
def parseLine (line : Str) : Option (Str × Str) :=
  match line with
  | [] => Option.none
  | c :: t =>
    if isWordChar c then
      let keyRest := t.takeWhile (fun d => isWordChar d || d = '-')
      match t.drop keyRest.length with
      | c2 :: rest2 =>
        if c2 = ':' then
          let value := rest2.drop (wsRunLen rest2)
          if value.all (fun d => !isLineTerm d) then some (c :: keyRest, value)
          else Option.none
        else Option.none
      | [] => Option.none
    else Option.none

/-- The quote stripping of `parseFrontmatter`: a value that starts and ends
    with `"` (or with a single quote) loses its first and last character. -/
def stripQuotes (v : Str) : Str :=
  if v ≠ [] ∧ ((v.headD ' ' = '"' ∧ v.getLastD ' ' = '"') ∨
               (v.headD ' ' = '\x27' ∧ v.getLastD ' ' = '\x27')) then
    (v.drop 1).dropLast
  else v

/-- Process one frontmatter line: parse it, trim the value, strip quotes.
    Lines that do not match the key-value pattern are ignored. -/
def procLine (line : Str) : Option (Str × Str) :=
  (parseLine line).map (fun kv => (kv.1, stripQuotes (jsTrim kv.2)))

/-- The line loop of `parseFrontmatter`: fold the recognized key-value
    pairs into the frontmatter object (later keys overwrite in place). -/
def parseLines (fmRaw : Str) : List (Str × Str) :=
  (splitOnChar '\n' fmRaw).foldl
    (fun acc line =>
      match procLine line with
      | some kv => upsert acc kv.1 kv.2
      | Option.none => acc)
    []

/-- `parseFrontmatter(content)` from `src/lib/transform.ts`: the recognized
    header pairs (insertion order) and the body.  Total by construction;
    when no delimiter pair matches, the header is empty and the body is the
    whole input. -/
def parseFrontmatter (content : Str) : List (Str × Str) × Str :=
  match fmMatch content with
  | Option.none => ([], content)
  | some fb => (parseLines fb.1, fb.2)

/-- A frontmatter field value of `buildFrontmatter`: `string | boolean`. -/
inductive FmVal where
  | str (v : Str) : FmVal
  | bool (b : Bool) : FmVal
deriving DecidableEq

/-- Collapse every run of newlines into a single space
    (`value.replace(/\n+/g, ' ')` in `buildFrontmatter`).  The boolean
    argument records whether the previous character was part of a run. -/
def collapseNlGo : Bool → Str → Str
  | _, [] => []
  | inRun, c :: t =>
    if c = '\n' then (if inRun then collapseNlGo true t else ' ' :: collapseNlGo true t)
    else c :: collapseNlGo false t

/-- Serialize one field value: booleans as bare `true`/`false`; strings
    with newline runs collapsed to spaces and outer whitespace trimmed. -/
def renderVal : FmVal → Str
  | .bool true => toStr "true"
  | .bool false => toStr "false"
  | .str v => jsTrim (collapseNlGo false v)

/-- One serialized line of `buildFrontmatter`. -/
def buildLine (k : Str) (v : FmVal) : Str := k ++ ':' :: ' ' :: renderVal v

/-- JavaScript `Array.prototype.join('\n')`. -/
def joinLines : List Str → Str
  | [] => []
  | [l] => l
  | l :: ls => l ++ '\n' :: joinLines ls

/-- `buildFrontmatter(fields)` from `src/lib/transform.ts`. -/
def buildFrontmatter (fields : List (Str × FmVal)) : Str :=
  joinLines (toStr "---" :: (fields.map (fun kv => buildLine kv.1 kv.2) ++ [toStr "---"]))

/- ── Rewrite engine: static transforms ────────────────────────────────────
   From `STATIC_TRANSFORMS` in `src/lib/constants.ts` and the transform
   loop of `transformContent` in `src/lib/transform.ts`.  All seven static
   patterns are literals except `/\bBash tool\b/`, whose word boundaries
   are modelled explicitly.  `String.prototype.replace` with a global
   pattern replaces leftmost, non-overlapping occurrences, resuming after
   each match; boundaries always refer to the original string.  The
   recursion consumes at least one input character per step, so fuel equal
   to the input length gives exactly the JavaScript behaviour. -/

/-- Global literal replacement, fuelled. -/
def raF (pat rep : Str) : Nat → Str → Str
  | _, [] => []
  | 0, s => s
  | fuel + 1, c :: t =>
    if pat ≠ [] ∧ pat.isPrefixOf (c :: t) then
      rep ++ raF pat rep fuel ((c :: t).drop pat.length)
    else c :: raF pat rep fuel t

/-- `s.replace(pat, rep)` for a global literal pattern. -/
def replaceAll (pat rep s : Str) : Str := raF pat rep s.length s

/-- Word-ness of an optional neighbouring character (`\b` looks at whether
    the characters on the two sides of a position differ in word-ness;
    outside the string counts as non-word). -/
def wordish : Option Char → Bool
  | Option.none => false
  | some c => isWordChar c

/-- Does a `\b`-delimited occurrence of `pat` start here, given the
    preceding original character? -/
def wbMatchAt (pat : Str) (prev : Option Char) (s : Str) : Bool :=
  pat ≠ [] && pat.isPrefixOf s &&
  (wordish prev != wordish (pat.headD ' ')) &&
  (wordish ((s.drop pat.length).headD ' ' |> some) != wordish (pat.getLastD ' ' |> some)) &&
  true

/-- Global replacement of `\b pat \b`, fuelled; `prev` is the original
    character before the current position. -/
def raWbF (pat rep : Str) : Nat → Option Char → Str → Str
  | _, _, [] => []
  | 0, _, s => s
  | fuel + 1, prev, c :: t =>
    if wbMatchAt pat prev (c :: t) then
      rep ++ raWbF pat rep fuel (some (pat.getLastD ' ')) ((c :: t).drop pat.length)
    else c :: raWbF pat rep fuel (some c) t

/-- `s.replace(/\b pat \b/g, rep)` for a literal `pat`. -/
def replaceAllWb (pat rep s : Str) : Str := raWbF pat rep s.length Option.none s

/-- Does `pat` occur as a substring? -/
def hasOcc (pat : Str) : Str → Bool
  | [] => pat.isPrefixOf []
  | c :: t => pat.isPrefixOf (c :: t) || hasOcc pat t

/-- Does a `\b`-delimited occurrence of `pat` exist, scanning with the
    previous character? -/
def hasOccWb (pat : Str) (prev : Option Char) : Str → Bool
  | [] => false
  | c :: t => wbMatchAt pat prev (c :: t) || hasOccWb pat (some c) t

/-- `STATIC_TRANSFORMS` from `src/lib/constants.ts`, applied in order by
    the loop of `transformContent`.  This is the prefix-independent rule
    subset of the rewrite pipeline. -/
def applyStatic (s : Str) : Str :=
  let s1 := replaceAll (toStr "~/.claude/") (toStr "~/.cursor/") s
  let s2 := replaceAll (toStr "CLAUDE.md") (toStr "project configuration") s1
  let s3 := replaceAll (toStr "Claude Code CLI") (toStr "Cursor") s2
  let s4 := replaceAll (toStr "Claude Code") (toStr "Cursor") s3
  let s5 := replaceAllWb (toStr "Bash tool") (toStr "Shell tool") s4
  let s6 := replaceAll (toStr "\"Bash\"") (toStr "\"Shell\"") s5
  replaceAll (toStr "\"Edit\"") (toStr "\"StrReplace\"") s6

/-- No static rule has a remaining match in `s`. -/
def noStaticResidue (s : Str) : Bool :=
  !hasOcc (toStr "~/.claude/") s && !hasOcc (toStr "CLAUDE.md") s &&
  !hasOcc (toStr "Claude Code CLI") s && !hasOcc (toStr "Claude Code") s &&
  !hasOccWb (toStr "Bash tool") Option.none s &&
  !hasOcc (toStr "\"Bash\"") s && !hasOcc (toStr "\"Edit\"") s

/- ── Rewrite engine: blank-line cleanup ───────────────────────────────────
   `result.replace(/\n{3,}/g, '\n\n')` at the end of `transformContent` in
   `src/lib/transform.ts`.  The greedy pattern matches every maximal run of
   three or more newline characters; each such run becomes exactly two
   newlines, shorter runs are kept.  `crGo` carries the count of pending
   newline characters. -/

/-- Render a finished run of `k` newline characters. -/
def emitNl (k : Nat) : Str :=
  if 3 ≤ k then ['\n', '\n'] else List.replicate k '\n'

/-- Scanner for the `\n{3,}` collapse. -/
def crGo : Nat → Str → Str
  | k, [] => emitNl k
  | k, c :: t => if c = '\n' then crGo (k + 1) t else emitNl k ++ c :: crGo 0 t

/-- The final cleanup step of `transformContent`. -/
def collapseRuns (s : Str) : Str := crGo 0 s

/- ── Supporting lemmas: scanner ───────────────────────────────────────────-/

/-- Scanning with an empty prefix yields nothing. -/
theorem scanDir_empty_pre (dir : Option (List Str)) : scanDir dir [] = [] := by
  cases dir <;> simp [scanDir]

/-- A name that does not start with `q ++ "-"` is never reported by
    `scanDir` with prefix `q`. -/
theorem scanDir_not_mem (q : Str) (dir : Option (List Str)) (x : Str)
    (h : ((q ++ ['-']).isPrefixOf x) = false) : x ∉ scanDir dir q := by
  cases dir with
  | none => simp [scanDir]
  | some es =>
    by_cases hq : q = []
    · simp [scanDir, hq]
    · simp only [scanDir, if_neg hq]
      intro hmem
      have := (List.mem_filter.mp hmem).2
      rw [h] at this
      exact Bool.false_ne_true this

/-- A present name that does start with `q ++ "-"` is reported by `scanDir`
    for a non-empty prefix `q`. -/
theorem scanDir_mem (q : Str) (es : List Str) (x : Str) (hq : q ≠ [])
    (hx : x ∈ es) (h : ((q ++ ['-']).isPrefixOf x) = true) :
    x ∈ scanDir (some es) q := by
  simp only [scanDir, if_neg hq]
  exact List.mem_filter.mpr ⟨hx, h⟩

/-- The dashed prefix of an installed name is a prefix of it. -/
theorem prefixName_isPrefixOf (p b : Str) (hp : p ≠ []) :
    ((p ++ ['-']).isPrefixOf (prefixName p b)) = true := by
  rw [List.isPrefixOf_iff_prefix]
  refine ⟨b, ?_⟩
  simp [prefixName, if_neg hp, List.append_assoc]

/-- C1 (counterexample).  The claim says that an item written as
    `prefixName(p, b)` is reported by no scan with a prefix other than `p`.
    It is false: the item `a-b-c`, written for prefix `a` and base `b-c`,
    is also reported by a scan with the different prefix `a-b`. -/
theorem c1_naming_scan_counterexample :
    prefixName (toStr "a") (toStr "b-c") = toStr "a-b-c" ∧
    toStr "a-b" ≠ toStr "a" ∧
    toStr "a-b-c" ∈
      (scanDirectory (CursorState.mk (some [toStr "a-b-c"]) (some []) (some []))
        (toStr "a-b")).skills := by
  decide

/-- C1 (amended).  For a non-empty prefix `p`, an item named
    `prefixName(p, b)` present in one of the three containers is reported
    by `scanDirectory` with prefix `p`; and a scan with any prefix `q`
    whose dashed form `q ++ "-"` is not a string prefix of the installed
    name never reports the item (for `q = p'` different from `p` this
    recovers the claim except when `p' ++ "-"` happens to be a prefix of
    `prefixName(p, b)`, which the counterexample shows possible). -/
theorem c1_naming_scan_amended (p b : Str) (st : CursorState) (hp : p ≠ []) :
    (∀ es, st.skills = some es → prefixName p b ∈ es →
        prefixName p b ∈ (scanDirectory st p).skills) ∧
    (∀ es, st.agents = some es → prefixName p b ∈ es →
        prefixName p b ∈ (scanDirectory st p).agents) ∧
    (∀ es, st.commands = some es → prefixName p b ∈ es →
        prefixName p b ∈ (scanDirectory st p).commands) ∧
    (∀ q : Str, ((q ++ ['-']).isPrefixOf (prefixName p b)) = false →
        prefixName p b ∉ (scanDirectory st q).skills ∧
        prefixName p b ∉ (scanDirectory st q).agents ∧
        prefixName p b ∉ (scanDirectory st q).commands) := by
  refine ⟨?_, ?_, ?_, ?_⟩
  · intro es hes hmem
    show prefixName p b ∈ scanDir st.skills p
    rw [hes]
    exact scanDir_mem p es _ hp hmem (prefixName_isPrefixOf p b hp)
  · intro es hes hmem
    show prefixName p b ∈ scanDir st.agents p
    rw [hes]
    exact scanDir_mem p es _ hp hmem (prefixName_isPrefixOf p b hp)
  · intro es hes hmem
    show prefixName p b ∈ scanDir st.commands p
    rw [hes]
    exact scanDir_mem p es _ hp hmem (prefixName_isPrefixOf p b hp)
  · intro q hq
    exact ⟨scanDir_not_mem q st.skills _ hq, scanDir_not_mem q st.agents _ hq,
           scanDir_not_mem q st.commands _ hq⟩

/-- C1 (witness).  The amended theorem applied at prefix `e`, base `x`: the
    item `e-x` is reported under prefix `e` and not under prefix `q`. -/
theorem c1_naming_scan_witness :
    toStr "e-x" ∈
      (scanDirectory (CursorState.mk (some [toStr "e-x"]) (some []) (some []))
        (toStr "e")).skills ∧
    toStr "e-x" ∉
      (scanDirectory (CursorState.mk (some [toStr "e-x"]) (some []) (some []))
        (toStr "q")).skills := by
  have h := c1_naming_scan_amended (toStr "e") (toStr "x")
    (CursorState.mk (some [toStr "e-x"]) (some []) (some [])) (by decide)
  have e1 : prefixName (toStr "e") (toStr "x") = toStr "e-x" := by decide
  refine ⟨?_, ?_⟩
  · have := h.1 [toStr "e-x"] rfl (by rw [e1]; exact List.mem_singleton.mpr rfl)
    rwa [e1] at this
  · have := (h.2.2.2 (toStr "q") (by decide)).1
    rwa [e1] at this

/-- C8.  With an empty prefix the scanner reports zero totals and empty
    lists whatever the target contains, and `runClean` removes nothing and
    returns the all-empty result. -/
theorem c8_no_prefix_mode (st : CursorState) :
    scanDirectory st [] = ScanResult.mk [] [] [] 0 ∧
    runClean st [] = (st, CleanResult.mk [] [] [] 0) := by
  constructor
  · simp [scanDirectory, scanDir_empty_pre]
  · simp [runClean]

/-- C7.  Selection resolution: `none` resolves to nothing, `all` to the
    whole available list, and an explicit name list to the sublist of the
    available servers (in their original order) whose names appear in the
    list; unknown names are ignored and can never fail. -/
theorem c7_selection_resolution (available : List AvailableServer) (ns : List Str) :
    resolveSelectedServers available McpSelection.none = [] ∧
    resolveSelectedServers available McpSelection.all = available ∧
    (resolveSelectedServers available (McpSelection.list ns)).Sublist available ∧
    (∀ s : AvailableServer,
        s ∈ resolveSelectedServers available (McpSelection.list ns) ↔
        s ∈ available ∧ s.name ∈ ns) := by
  refine ⟨rfl, rfl, List.filter_sublist _, ?_⟩
  intro s
  simp only [resolveSelectedServers, List.mem_filter, List.elem_iff]

/-- C7 (witness).  The resolution equations at a concrete available list:
    a known name is kept, an unknown one ignored. -/
theorem c7_selection_resolution_witness :
    resolveSelectedServers
      [AvailableServer.mk (toStr "m") [] (ServerConfig.mk Option.none Option.none Option.none Option.none [])]
      (McpSelection.list [toStr "m", toStr "zz"]) =
      [AvailableServer.mk (toStr "m") [] (ServerConfig.mk Option.none Option.none Option.none Option.none [])] ∧
    resolveSelectedServers
      [AvailableServer.mk (toStr "m") [] (ServerConfig.mk Option.none Option.none Option.none Option.none [])]
      McpSelection.none = [] := by
  have h := c7_selection_resolution
    [AvailableServer.mk (toStr "m") [] (ServerConfig.mk Option.none Option.none Option.none Option.none [])]
    [toStr "m", toStr "zz"]
  exact ⟨by decide, h.1⟩

/-- C5.  Hook gating: the hook translator depends only on the existence of
    `hooks/hooks.json`.  Two source trees that both contain the file give
    identical output; the returned paths are exactly the three fixed
    guideline documents under `skills/<prefixed coding-standards>/rules/`;
    every written file is at one of the returned paths; and when the file
    is absent nothing is written and the empty list is returned. -/
theorem c5_hook_gating (t1 t2 : SourceTree) (pre : Str) (d : Bool)
    (h1 : t1.hooksJson.isSome) (h2 : t2.hooksJson.isSome) :
    translateHooks t1 pre d = translateHooks t2 pre d ∧
    (translateHooks t1 pre d).2 =
      [hookRulePath (prefixName pre (toStr "coding-standards")) (toStr "no-console-log.md"),
       hookRulePath (prefixName pre (toStr "coding-standards")) (toStr "review-before-push.md"),
       hookRulePath (prefixName pre (toStr "coding-standards")) (toStr "minimal-docs.md")] ∧
    (translateHooks t1 pre false).1.map Prod.fst = (translateHooks t1 pre false).2 ∧
    (translateHooks t1 pre false).1.length = 3 ∧
    (∀ t : SourceTree, t.hooksJson = Option.none → translateHooks t pre d = ([], [])) := by
  obtain ⟨c1, hc1⟩ := Option.isSome_iff_exists.mp h1
  obtain ⟨c2, hc2⟩ := Option.isSome_iff_exists.mp h2
  obtain ⟨j1⟩ := t1
  obtain ⟨j2⟩ := t2
  simp only at hc1 hc2
  subst hc1
  subst hc2
  refine ⟨rfl, rfl, rfl, rfl, ?_⟩
  intro t ht
  obtain ⟨j⟩ := t
  simp only at ht
  subst ht
  rfl

/-- C5 (witness).  The hook gating theorem at two concrete trees with
    different `hooks.json` contents. -/
theorem c5_hook_gating_witness :
    translateHooks (SourceTree.mk (some (toStr "{}"))) (toStr "ecc") true =
      translateHooks (SourceTree.mk (some (toStr "[1]"))) (toStr "ecc") true ∧
    translateHooks (SourceTree.mk Option.none) (toStr "ecc") true = ([], []) := by
  have h := c5_hook_gating (SourceTree.mk (some (toStr "{}")))
    (SourceTree.mk (some (toStr "[1]"))) (toStr "ecc") true (by decide) (by decide)
  exact ⟨h.1, h.2.2.2.2 (SourceTree.mk Option.none) rfl⟩

/-- C10.  The dry-run frame property fails for the agent translator: with
    `dryRun = true` and a source tree whose `agents/` directory exists
    (here: is empty), `translateAgents` still creates `ctx.agentsDir`
    (`mkdir` is not guarded by `dryRun`, unlike in every other translator),
    so the target tree changes from "agents directory absent" to "agents
    directory present".  This holds for every content computation
    `render`. -/
theorem c10_agents_dryrun_mkdir (render : Str → Str → Str × Str) :
    (translateAgentsM render (some []) (TargetFS.mk false []) true).1 =
      TargetFS.mk true [] ∧
    TargetFS.mk false [] ≠ TargetFS.mk true [] := by
  exact ⟨rfl, by decide⟩

/- ── Supporting lemmas: registry merge ────────────────────────────────────-/

/-- Appending entries on the right preserves first-match lookups. -/
theorem lookupReg_append (reg ext : List (Str × ServerConfig)) (k : Str)
    (v : ServerConfig) (h : lookupReg reg k = some v) :
    lookupReg (reg ++ ext) k = some v := by
  induction reg with
  | nil => simp [lookupReg] at h
  | cons p r ih =>
    obtain ⟨k', v'⟩ := p
    by_cases hk : k' = k
    · simpa [lookupReg, hk] using (by simpa [lookupReg, hk] using h)
    · simp only [lookupReg, if_neg hk, List.cons_append] at h ⊢
      exact ih h

/-- Invariant of the install loop of `translateMcp`: existing keys keep
    their values, and the counter total grows by exactly the number of
    processed servers. -/
theorem mcpFold_spec (d : Bool) (servers : List AvailableServer) :
    ∀ reg a s,
      (∀ k v, lookupReg reg k = some v →
        lookupReg (servers.foldl (mcpStep d) (reg, a, s)).1 k = some v) ∧
      (servers.foldl (mcpStep d) (reg, a, s)).2.1 +
        (servers.foldl (mcpStep d) (reg, a, s)).2.2 = a + s + servers.length := by
  induction servers with
  | nil =>
    intro reg a s
    exact ⟨fun k v h => h, rfl⟩
  | cons srv rest ih =>
    intro reg a s
    simp only [List.foldl_cons]
    cases hl : lookupReg reg srv.name with
    | some w =>
      have step : mcpStep d (reg, a, s) srv = (reg, a, s + 1) := by
        simp [mcpStep, hl]
      rw [step]
      refine ⟨(ih reg a (s + 1)).1, ?_⟩
      rw [(ih reg a (s + 1)).2, List.length_cons]
      omega
    | none =>
      have step : mcpStep d (reg, a, s) srv =
          ((if d then reg else reg ++ [(srv.name, cleanConfig srv.config)]), a + 1, s) := by
        simp [mcpStep, hl]
      rw [step]
      set reg' := if d then reg else reg ++ [(srv.name, cleanConfig srv.config)] with hreg'
      refine ⟨?_, ?_⟩
      · intro k v hkv
        refine (ih reg' (a + 1) s).1 k v ?_
        rw [hreg']
        cases d with
        | true => simpa using hkv
        | false => simpa using lookupReg_append reg _ k v hkv
      · rw [(ih reg' (a + 1) s).2, List.length_cons]
        omega

/-- Resolving against an empty available list yields the empty list. -/
theorem resolve_nil (sel : McpSelection) : resolveSelectedServers [] sel = [] := by
  cases sel <;> simp [resolveSelectedServers]

/-- C2.  Merge monotonicity: `translateMcp` never deletes or overwrites a
    key already present in the target registry — every key present before
    the merge is present with an unchanged value after it — and the
    returned counts satisfy
    `added + skipped = |resolveSelectedServers(available, selection)|`. -/
theorem c2_merge_monotonicity (available : List AvailableServer)
    (reg : List (Str × ServerConfig)) (d : Bool) (sel : McpSelection) :
    (∀ k v, lookupReg reg k = some v →
        lookupReg (translateMcp available reg d sel).1 k = some v) ∧
    (translateMcp available reg d sel).2.1 + (translateMcp available reg d sel).2.2 =
      (resolveSelectedServers available sel).length := by
  unfold translateMcp
  cases he : available.isEmpty with
  | true =>
    have hav : available = [] := List.isEmpty_iff.mp he
    subst hav
    simp [resolve_nil]
  | false =>
    cases sel with
    | none => simp [resolveSelectedServers]
    | all =>
      simp only [he, Bool.false_eq_true, if_false]
      have h := mcpFold_spec d (resolveSelectedServers available McpSelection.all) reg 0 0
      exact ⟨h.1, by rw [h.2]; omega⟩
    | list ns =>
      simp only [he, Bool.false_eq_true, if_false]
      have h := mcpFold_spec d (resolveSelectedServers available (McpSelection.list ns)) reg 0 0
      exact ⟨h.1, by rw [h.2]; omega⟩

/-- C2 (witness).  The merge theorem at a concrete registry holding key
    `a` and one candidate server `s`: the pre-existing entry survives with
    its value, and `added + skipped` equals the resolved count. -/
theorem c2_merge_monotonicity_witness :
    lookupReg (translateMcp
        [AvailableServer.mk (toStr "s") []
          (ServerConfig.mk (some (toStr "npx")) Option.none Option.none Option.none [])]
        [(toStr "a", ServerConfig.mk Option.none Option.none Option.none Option.none [])]
        false McpSelection.all).1 (toStr "a") =
      some (ServerConfig.mk Option.none Option.none Option.none Option.none []) ∧
    (translateMcp
        [AvailableServer.mk (toStr "s") []
          (ServerConfig.mk (some (toStr "npx")) Option.none Option.none Option.none [])]
        [(toStr "a", ServerConfig.mk Option.none Option.none Option.none Option.none [])]
        false McpSelection.all).2.1 +
      (translateMcp
        [AvailableServer.mk (toStr "s") []
          (ServerConfig.mk (some (toStr "npx")) Option.none Option.none Option.none [])]
        [(toStr "a", ServerConfig.mk Option.none Option.none Option.none Option.none [])]
        false McpSelection.all).2.2 =
      (resolveSelectedServers
        [AvailableServer.mk (toStr "s") []
          (ServerConfig.mk (some (toStr "npx")) Option.none Option.none Option.none [])]
        McpSelection.all).length := by
  have h := c2_merge_monotonicity
    [AvailableServer.mk (toStr "s") []
      (ServerConfig.mk (some (toStr "npx")) Option.none Option.none Option.none [])]
    [(toStr "a", ServerConfig.mk Option.none Option.none Option.none Option.none [])]
    false McpSelection.all
  exact ⟨h.1 (toStr "a") _ (by rfl), h.2⟩

/-- C9.  Header parse fallback: `parseFrontmatter` is a total function of
    its input (never raises), and whenever the delimiter-pair match fails
    it returns an empty header and the whole input, unchanged, as the
    body. -/
theorem c9_parse_fallback (content : Str) (h : fmMatch content = Option.none) :
    parseFrontmatter content = ([], content) := by
  simp [parseFrontmatter, h]

/-- C9 (witness).  The fallback at a concrete delimiter-free input. -/
theorem c9_parse_fallback_witness :
    fmMatch (toStr "hello") = Option.none ∧
    parseFrontmatter (toStr "hello") = ([], toStr "hello") := by
  exact ⟨by decide, c9_parse_fallback _ (by decide)⟩

/- ── Supporting lemmas: blank-line collapse ───────────────────────────────-/

/-- One scanner step over a newline. -/
theorem crGo_cons_nl (k : Nat) (t : Str) : crGo k ('\n' :: t) = crGo (k + 1) t := by
  simp [crGo]

/-- One scanner step over a non-newline character. -/
theorem crGo_cons_ne (k : Nat) (c : Char) (t : Str) (hc : c ≠ '\n') :
    crGo k (c :: t) = emitNl k ++ c :: crGo 0 t := by
  simp [crGo, hc]

/-- Leading newline characters accumulate into the pending count. -/
theorem crGo_replicate (b : Str) :
    ∀ n k, crGo k (List.replicate n '\n' ++ b) = crGo (k + n) b := by
  intro n
  induction n with
  | zero => intro k; simp
  | succ m ih =>
    intro k
    show crGo k ('\n' :: (List.replicate m '\n' ++ b)) = crGo (k + (m + 1)) b
    rw [crGo_cons_nl, ih (k + 1)]
    congr 1
    omega

/-- When the next character is not a newline, the pending run is emitted. -/
theorem crGo_emit (k : Nat) (b : Str) (hb : b.head? ≠ some '\n') :
    crGo k b = emitNl k ++ crGo 0 b := by
  cases b with
  | nil => simp [crGo, emitNl]
  | cons c t =>
    have hc : c ≠ '\n' := by
      intro hc
      exact hb (by rw [hc]; rfl)
    simp [crGo, hc, emitNl]

/-- The collapse distributes over a cut placed after a non-newline
    character. -/
theorem crGo_split (a : Str) :
    a ≠ [] → a.getLast? ≠ some '\n' →
    ∀ (k : Nat) (r : Str), crGo k (a ++ r) = crGo k a ++ crGo 0 r := by
  induction a with
  | nil => intro h; exact absurd rfl h
  | cons c a' ih =>
    intro _ ha k r
    cases a' with
    | nil =>
      have hc : c ≠ '\n' := by
        intro hc
        exact ha (by rw [hc]; rfl)
      simp [crGo, hc, emitNl]
    | cons d t =>
      have ha' : (d :: t).getLast? ≠ some '\n' := by
        rwa [List.getLast?_cons_cons] at ha
      by_cases hc : c = '\n'
      · subst hc
        show crGo k ('\n' :: ((d :: t) ++ r)) = crGo k ('\n' :: (d :: t)) ++ crGo 0 r
        rw [crGo_cons_nl k ((d :: t) ++ r), crGo_cons_nl k (d :: t)]
        exact ih (by simp) ha' (k + 1) r
      · show crGo k (c :: ((d :: t) ++ r)) = crGo k (c :: (d :: t)) ++ crGo 0 r
        rw [crGo_cons_ne k c ((d :: t) ++ r) hc, crGo_cons_ne k c (d :: t) hc,
            ih (by simp) ha' 0 r]
        simp [List.append_assoc]

/-- C6 (counterexample).  The claim says runs of fewer than 3 consecutive
    blank lines are left unchanged; but `a\n\n\nb`, which contains a run of
    exactly two blank lines (three newline characters), is rewritten to
    `a\n\nb`. -/
theorem c6_blank_collapse_counterexample :
    collapseRuns (toStr "a\n\n\nb") = toStr "a\n\nb" ∧
    toStr "a\n\nb" ≠ toStr "a\n\n\nb" := by
  decide

/-- C6 (amended).  The final cleanup collapses every maximal run of 3 or
    more consecutive newline characters (i.e. 2 or more consecutive blank
    lines) into exactly two newlines (one blank line), and leaves maximal
    runs of 1 or 2 newlines unchanged: for a context where `a` does not end
    and `b` does not begin with a newline, a run of `n` newlines between
    them becomes `emitNl n`, which is two newlines when `n ≥ 3` and the
    run itself otherwise. -/
theorem c6_blank_collapse_amended (a b : Str) (n : Nat)
    (ha : a.getLast? ≠ some '\n') (hb : b.head? ≠ some '\n') :
    collapseRuns (a ++ List.replicate n '\n' ++ b) =
      collapseRuns a ++ emitNl n ++ collapseRuns b := by
  by_cases hne : a = []
  · subst hne
    show crGo 0 (List.replicate n '\n' ++ b) = crGo 0 [] ++ emitNl n ++ crGo 0 b
    rw [crGo_replicate b n 0, crGo_emit (0 + n) b hb]
    simp [crGo, emitNl]
  · show crGo 0 ((a ++ List.replicate n '\n') ++ b) = crGo 0 a ++ emitNl n ++ crGo 0 b
    rw [List.append_assoc, crGo_split a hne ha 0 (List.replicate n '\n' ++ b),
        crGo_replicate b n 0, crGo_emit (0 + n) b hb]
    simp

/-- C6 (witness).  The amended theorem at `a`, four newlines, `b`. -/
theorem c6_blank_collapse_witness :
    (toStr "a").getLast? ≠ some '\n' ∧ (toStr "b").head? ≠ some '\n' ∧
    collapseRuns (toStr "a" ++ List.replicate 4 '\n' ++ toStr "b") =
      collapseRuns (toStr "a") ++ emitNl 4 ++ collapseRuns (toStr "b") := by
  exact ⟨by decide, by decide,
    c6_blank_collapse_amended (toStr "a") (toStr "b") 4 (by decide) (by decide)⟩

/- ── Supporting lemmas: static transforms ─────────────────────────────────-/

/-- A string without any occurrence of the pattern is a fixed point of the
    global replacement. -/
theorem raF_id_of_no_occ (pat rep : Str) :
    ∀ (fuel : Nat) (s : Str), hasOcc pat s = false → raF pat rep fuel s = s := by
  intro fuel
  induction fuel with
  | zero => intro s _; cases s <;> rfl
  | succ f ih =>
    intro s h
    cases s with
    | nil => rfl
    | cons c t =>
      simp only [hasOcc, Bool.or_eq_false_iff] at h
      have hng : ¬(pat ≠ [] ∧ pat.isPrefixOf (c :: t) = true) := by
        intro hx
        rw [h.1] at hx
        exact Bool.false_ne_true hx.2
      simp only [raF, if_neg hng]
      rw [ih t h.2]

/-- The same for the global replacement, no occurrence of the pattern. -/
theorem replaceAll_id_of_no_occ (pat rep s : Str) (h : hasOcc pat s = false) :
    replaceAll pat rep s = s :=
  raF_id_of_no_occ pat rep s.length s h

/-- A string without any boundary-delimited occurrence of the pattern is a
    fixed point of the word-boundary replacement. -/
theorem raWbF_id_of_no_occ (pat rep : Str) :
    ∀ (fuel : Nat) (prev : Option Char) (s : Str),
      hasOccWb pat prev s = false → raWbF pat rep fuel prev s = s := by
  intro fuel
  induction fuel with
  | zero => intro prev s _; cases s <;> rfl
  | succ f ih =>
    intro prev s h
    cases s with
    | nil => rfl
    | cons c t =>
      simp only [hasOccWb, Bool.or_eq_false_iff] at h
      simp only [raWbF, h.1, Bool.false_eq_true, if_false]
      rw [ih (some c) t h.2]

/-- The same for the word-boundary replacement. -/
theorem replaceAllWb_id_of_no_occ (pat rep s : Str)
    (h : hasOccWb pat Option.none s = false) : replaceAllWb pat rep s = s :=
  raWbF_id_of_no_occ pat rep s.length Option.none s h

/-- C4 (counterexample).  The claim asserts
    `applyStatic (applyStatic x) = applyStatic x` for arbitrary `x`.  It is
    false: on `"Edit"Edit"` the rule `"Edit" → "StrReplace"` rewrites the
    first, leftmost occurrence, and the closing quote of the replacement
    together with the remaining text forms a new `"Edit"` occurrence, which
    only the second application rewrites.  (This also refutes the spec's
    premise that any rule whose pattern does not match its own replacement
    text is idempotent: `"Edit"` does not occur in `"StrReplace"`.) -/
theorem c4_static_idempotence_counterexample :
    applyStatic (applyStatic (toStr "\"Edit\"Edit\"")) ≠
      applyStatic (toStr "\"Edit\"Edit\"") := by
  decide

/-- C4 (amended).  A single pass of the static rules is idempotent exactly
    on those inputs whose image contains no residual match of any static
    rule: whenever `applyStatic x` has no occurrence of any of the seven
    static patterns (with `\b`-delimited occurrences for `Bash tool`), a
    second application changes nothing.  The counterexample shows the
    residue condition cannot be dropped. -/
theorem c4_static_idempotence_amended (x : Str)
    (h : noStaticResidue (applyStatic x) = true) :
    applyStatic (applyStatic x) = applyStatic x := by
  have h' := h
  simp only [noStaticResidue, Bool.and_eq_true, Bool.not_eq_true'] at h'
  obtain ⟨⟨⟨⟨⟨⟨h1, h2⟩, h3⟩, h4⟩, h5⟩, h6⟩, h7⟩ := h'
  show applyStatic (applyStatic x) = applyStatic x
  conv_lhs => rw [applyStatic]
  rw [replaceAll_id_of_no_occ _ _ _ h1, replaceAll_id_of_no_occ _ _ _ h2,
      replaceAll_id_of_no_occ _ _ _ h3, replaceAll_id_of_no_occ _ _ _ h4,
      replaceAllWb_id_of_no_occ _ _ _ h5, replaceAll_id_of_no_occ _ _ _ h6,
      replaceAll_id_of_no_occ _ _ _ h7]

/-- C4 (witness).  The amended theorem at `Claude Code`, whose image
    `Cursor` has no residual static match. -/
theorem c4_static_idempotence_witness :
    noStaticResidue (applyStatic (toStr "Claude Code")) = true ∧
    applyStatic (applyStatic (toStr "Claude Code")) = applyStatic (toStr "Claude Code") := by
  exact ⟨by decide, c4_static_idempotence_amended (toStr "Claude Code") (by decide)⟩

/- ── Supporting definitions and lemmas: header round trip ─────────────────-/

/-- A key `buildFrontmatter` serializes and the line pattern
    `^(\w[\w-]*):` recognizes again: non-empty, a word character first,
    word characters or hyphens after. -/
def goodKey : Str → Bool
  | [] => false
  | c :: t => isWordChar c && t.all (fun d => isWordChar d || d = '-')

/-- A value that survives the round trip unchanged: no line terminators
    (in particular no newline), no leading or trailing whitespace (the
    serializer trims, the parser eats leading whitespace), and not wrapped
    in matching double or single quotes (the parser strips those). -/
def goodVal (v : Str) : Bool :=
  v.all (fun c => !isLineTerm c) &&
  !isJsWs (v.headD 'a') && !isJsWs (v.getLastD 'a') &&
  !((v.headD ' ' = '"' && v.getLastD ' ' = '"') ||
    (v.headD ' ' = '\x27' && v.getLastD ' ' = '\x27'))

/-- The serialized form of one good field. -/
def lineOf (p : Str × Str) : Str := p.1 ++ ':' :: ' ' :: p.2

/-- Every newline in the string is followed by a word character. -/
def nlOk : Str → Bool
  | [] => true
  | c :: t =>
    (if c = '\n' then (match t with | [] => true | d :: _ => isWordChar d) else true) &&
    nlOk t

/-- A word character is not JavaScript whitespace. -/
theorem word_not_ws {c : Char} (h : isWordChar c = true) : isJsWs c = false := by
  simp only [isWordChar, Bool.or_eq_true, Bool.and_eq_true, decide_eq_true_eq] at h
  cases hb : isJsWs c
  · rfl
  · exfalso
    simp only [isJsWs, Bool.or_eq_true, Bool.and_eq_true, decide_eq_true_eq] at hb
    omega

/-- A word character is not a newline. -/
theorem word_ne_nl {c : Char} (h : isWordChar c = true) : c ≠ '\n' := by
  intro hc
  subst hc
  exact absurd h (by decide)

/-- A word character is not a hyphen. -/
theorem word_ne_dash {c : Char} (h : isWordChar c = true) : c ≠ '-' := by
  intro hc
  subst hc
  exact absurd h (by decide)

/-- Newline-free strings are fixed by the newline-run collapse. -/
theorem collapseNlGo_id (v : Str) (h : ∀ c ∈ v, c ≠ '\n') :
    collapseNlGo false v = v := by
  induction v with
  | nil => rfl
  | cons c t ih =>
    have hc : c ≠ '\n' := h c (List.mem_cons_self c t)
    simp only [collapseNlGo, if_neg hc]
    rw [ih (fun d hd => h d (List.mem_cons_of_mem c hd))]

/-- `dropWhile` is the identity when the head does not satisfy the
    predicate. -/
theorem dropWhile_id {p : Char → Bool} (v : Str) (h : p (v.headD 'a') = false) :
    v.dropWhile p = v := by
  cases v with
  | nil => rfl
  | cons c t => simp only [List.headD_cons] at h; simp [List.dropWhile_cons, h]

/-- The default head of a reversed list is the default last element. -/
theorem headD_reverse (l : Str) (d : Char) : l.reverse.headD d = l.getLastD d := by
  rw [List.headD_eq_head?, List.head?_reverse, List.getLastD_eq_getLast?]

/-- `trim` is the identity on strings with no outer whitespace. -/
theorem jsTrim_id (v : Str) (h1 : isJsWs (v.headD 'a') = false)
    (h2 : isJsWs (v.getLastD 'a') = false) : jsTrim v = v := by
  unfold jsTrim
  rw [dropWhile_id v h1, dropWhile_id v.reverse (by rw [headD_reverse]; exact h2),
      List.reverse_reverse]

/-- Good values are fixed by the serializer's value normalization. -/
theorem renderVal_id (v : Str) (h : goodVal v = true) :
    renderVal (FmVal.str v) = v := by
  simp only [goodVal, Bool.and_eq_true, List.all_eq_true, Bool.not_eq_true'] at h
  obtain ⟨⟨⟨hall, hh⟩, hl⟩, _⟩ := h
  have hnl : ∀ c ∈ v, c ≠ '\n' := by
    intro c hc hceq
    subst hceq
    have := hall _ hc
    exact absurd this (by decide)
  show jsTrim (collapseNlGo false v) = v
  rw [collapseNlGo_id v hnl, jsTrim_id v hh hl]

/-- Good values are fixed by the parser's quote stripping. -/
theorem stripQuotes_id (v : Str)
    (h : ((v.headD ' ' = '"' && v.getLastD ' ' = '"') ||
          (v.headD ' ' = '\x27' && v.getLastD ' ' = '\x27')) = false) :
    stripQuotes v = v := by
  unfold stripQuotes
  rw [if_neg]
  intro hx
  simp only [Bool.or_eq_false_iff, Bool.and_eq_false_iff, decide_eq_false_iff_not] at h
  rcases hx.2 with ⟨ha, hb⟩ | ⟨ha, hb⟩
  · rcases h.1 with hc | hc
    · exact hc ha
    · exact hc hb
  · rcases h.2 with hc | hc
    · exact hc ha
    · exact hc hb

/-- A whitespace run starting with a non-whitespace head has length 0. -/
theorem wsRunLen_zero (v : Str) (h : isJsWs (v.headD 'a') = false) :
    wsRunLen v = 0 := by
  cases v with
  | nil => rfl
  | cons c t => simp only [List.headD_cons] at h; simp [wsRunLen, h]

/-- Joining a line onto a non-empty rest inserts one newline. -/
theorem joinLines_cons (l : Str) (ls : List Str) (h : ls ≠ []) :
    joinLines (l :: ls) = l ++ '\n' :: joinLines ls := by
  cases ls with
  | nil => exact absurd rfl h
  | cons a r => rfl

/-- Joining after appending a final line. -/
theorem joinLines_append_single (ls : List Str) (e : Str) (h : ls ≠ []) :
    joinLines (ls ++ [e]) = joinLines ls ++ '\n' :: e := by
  induction ls with
  | nil => exact absurd rfl h
  | cons l r ih =>
    cases r with
    | nil => rfl
    | cons l2 r2 =>
      rw [List.cons_append, joinLines_cons l (l2 :: r2 ++ [e]) (by simp),
          joinLines_cons l (l2 :: r2) (by simp), ih (by simp)]
      simp

/-- A join of a non-empty list of lines starts with its first line. -/
theorem joinLines_head_ex (l : Str) (ls : List Str) :
    ∃ r, joinLines (l :: ls) = l ++ r := by
  cases ls with
  | nil => exact ⟨[], by simp [joinLines]⟩
  | cons a r => exact ⟨'\n' :: joinLines (a :: r), rfl⟩

/-- The default head of an append with a non-empty left part. -/
theorem headD_append (l r : Str) (d : Char) (h : l ≠ []) :
    (l ++ r).headD d = l.headD d := by
  cases l with
  | nil => exact absurd rfl h
  | cons c t => rfl

/-- One `nlOk` step over a non-newline character. -/
theorem nlOk_cons_ne (c : Char) (t : Str) (hc : c ≠ '\n') :
    nlOk (c :: t) = nlOk t := by
  simp [nlOk, hc]

/-- Newline-free strings satisfy `nlOk`. -/
theorem nlOk_no_nl (l : Str) (h : '\n' ∉ l) : nlOk l = true := by
  induction l with
  | nil => rfl
  | cons c t ih =>
    have hc : c ≠ '\n' := fun hx => h (hx ▸ List.mem_cons_self c t)
    rw [nlOk_cons_ne c t hc]
    exact ih (fun hx => h (List.mem_cons_of_mem c hx))

/-- `nlOk` for a newline-free line joined in front of a block that starts
    with a word character. -/
theorem nlOk_append (l M : Str) (hl : '\n' ∉ l) (hM : nlOk M = true)
    (hMh : isWordChar (M.headD ' ') = true) (hMne : M ≠ []) :
    nlOk (l ++ '\n' :: M) = true := by
  induction l with
  | nil =>
    cases M with
    | nil => exact absurd rfl hMne
    | cons d t =>
      simp only [List.headD_cons] at hMh
      have hd : d ≠ '\n' := word_ne_nl hMh
      rw [nlOk_cons_ne d t hd] at hM
      simp [nlOk, hMh, hd, hM]
  | cons c t ih =>
    have hc : c ≠ '\n' := fun hx => hl (hx ▸ List.mem_cons_self c t)
    rw [List.cons_append, nlOk_cons_ne c _ hc]
    exact ih (fun hx => hl (List.mem_cons_of_mem c hx))

/-- `nlOk` for a join of non-empty, newline-free, word-headed lines. -/
theorem nlOk_join (ls : List Str)
    (h : ∀ l ∈ ls, l ≠ [] ∧ isWordChar (l.headD ' ') = true ∧ '\n' ∉ l) :
    nlOk (joinLines ls) = true := by
  induction ls with
  | nil => rfl
  | cons l r ih =>
    cases r with
    | nil => exact nlOk_no_nl l (h l (List.mem_cons_self l [])).2.2
    | cons l2 r2 =>
      rw [joinLines_cons l (l2 :: r2) (by simp)]
      obtain ⟨hl2ne, hl2h, _⟩ := h l2 (List.mem_cons_of_mem l (List.mem_cons_self l2 r2))
      obtain ⟨rr, hrr⟩ := joinLines_head_ex l2 r2
      refine nlOk_append l (joinLines (l2 :: r2)) (h l (List.mem_cons_self l _)).2.2
        (ih (fun x hx => h x (List.mem_cons_of_mem l hx))) ?_ ?_
      · rw [hrr, headD_append l2 rr ' ' hl2ne]
        exact hl2h
      · rw [hrr]
        cases l2 with
        | nil => exact absurd rfl hl2ne
        | cons a b => simp

/-- The `nlOk` invariant implies that the closing `\n---` appended after the
    block is its first occurrence: the search walks past every character of
    the block. -/
theorem splitOnFirst_self (X : Str) (hX : nlOk X = true) :
    splitOnFirst nlDashes (X ++ nlDashes) = some (X, []) := by
  induction X with
  | nil => decide
  | cons c X' ih =>
    have hX' : nlOk X' = true := by
      by_cases hc : c = '\n'
      · subst hc
        simp only [nlOk, if_pos rfl, Bool.and_eq_true] at hX
        exact hX.2
      · rw [nlOk_cons_ne c X' hc] at hX
        exact hX
    have hnp : nlDashes.isPrefixOf (c :: (X' ++ nlDashes)) = false := by
      rw [Bool.eq_false_iff]
      intro hpre
      obtain ⟨r, hr⟩ := List.isPrefixOf_iff_prefix.mp hpre
      by_cases hc : c = '\n'
      · subst hc
        simp only [nlOk, if_pos rfl, Bool.and_eq_true] at hX
        cases X' with
        | nil => simp [nlDashes] at hr
        | cons d t =>
          have hd : isWordChar d = true := by
            simpa using hX.1
          simp only [nlDashes, List.cons_append, List.append_eq, List.cons.injEq] at hr
          exact word_ne_dash hd hr.2.1.symm
      · simp only [nlDashes, List.cons_append, List.cons.injEq] at hr
        exact hc hr.1.symm
    show splitOnFirst nlDashes (c :: (X' ++ nlDashes)) = some (c :: X', [])
    simp only [splitOnFirst]
    rw [if_neg (by rw [hnp]; exact Bool.false_ne_true), ih hX']
    rfl

/-- The frontmatter matcher on a serialized block: the text
    `--- \n X \n---` matches with group 1 = `X` and an empty body, provided
    `X` is non-empty, starts with a word character and satisfies `nlOk`. -/
theorem fmMatch_build (X : Str) (hne : X ≠ [])
    (hhead : isWordChar (X.headD ' ') = true) (hX : nlOk X = true) :
    fmMatch (toStr "---" ++ '\n' :: (X ++ nlDashes)) = some (X, []) := by
  obtain ⟨cx, X', rfl⟩ : ∃ c t, X = c :: t := by
    cases X with
    | nil => exact absurd rfl hne
    | cons c t => exact ⟨c, t, rfl⟩
  simp only [List.headD_cons] at hhead
  have hws : isJsWs cx = false := word_not_ws hhead
  have hcnl : cx ≠ '\n' := word_ne_nl hhead
  unfold fmMatch
  rw [if_pos (List.isPrefixOf_iff_prefix.mpr (List.prefix_append _ _))]
  have hdrop : (toStr "---" ++ '\n' :: (cx :: X' ++ nlDashes)).drop 3 =
      '\n' :: (cx :: X' ++ nlDashes) := List.drop_left (toStr "---") _
  rw [hdrop]
  have hrun : wsRunLen ('\n' :: (cx :: X' ++ nlDashes)) = 1 := by
    show (if isJsWs '\n' then wsRunLen (cx :: X' ++ nlDashes) + 1 else 0) = 1
    rw [if_pos (by decide)]
    show (if isJsWs cx then wsRunLen (X' ++ nlDashes) + 1 else 0) + 1 = 1
    rw [if_neg (by rw [hws]; exact Bool.false_ne_true)]
  rw [hrun]
  show fmTry ('\n' :: (cx :: X' ++ nlDashes)) (0 + 1) = some (cx :: X', [])
  unfold fmTry
  rw [if_neg (by
    show ¬(('\n' :: (cx :: X' ++ nlDashes)).drop (0 + 1)).headD ' ' = '\n'
    simpa using hcnl)]
  unfold fmTry
  rw [if_pos (by rfl)]
  have : ('\n' :: (cx :: X' ++ nlDashes)).drop 1 = (cx :: X') ++ nlDashes := by simp
  rw [this, splitOnFirst_self (cx :: X') hX]
  rfl

/-- `takeWhile` stops exactly at the first failing character after an
    all-passing block. -/
theorem takeWhile_all_stop {q : Char → Bool} (a : Str) (c : Char) (r : Str)
    (ha : a.all q = true) (hc : q c = false) : (a ++ c :: r).takeWhile q = a := by
  induction a with
  | nil => simp [List.takeWhile_cons, hc]
  | cons x t ih =>
    simp only [List.all_cons, Bool.and_eq_true] at ha
    simp [List.takeWhile_cons, ha.1, ih ha.2]

/-- The parser recovers a good serialized field line exactly. -/
theorem procLine_lineOf (p : Str × Str) (hk : goodKey p.1 = true)
    (hv : goodVal p.2 = true) : procLine (lineOf p) = some p := by
  obtain ⟨k, v⟩ := p
  obtain ⟨kc, kt, rfl⟩ : ∃ c t, k = c :: t := by
    cases k with
    | nil => exact absurd hk (by simp [goodKey])
    | cons c t => exact ⟨c, t, rfl⟩
  simp only [goodKey, Bool.and_eq_true] at hk
  have hvparts := hv
  simp only [goodVal, Bool.and_eq_true, Bool.not_eq_true'] at hvparts
  obtain ⟨⟨⟨hall, hh⟩, hl⟩, hq⟩ := hvparts
  show procLine ((kc :: kt) ++ ':' :: ' ' :: v) = some (kc :: kt, v)
  unfold procLine parseLine
  simp only [List.cons_append]
  rw [if_pos hk.1]
  have htw : (kt ++ ':' :: ' ' :: v).takeWhile (fun d => isWordChar d || d = '-') = kt :=
    takeWhile_all_stop kt ':' (' ' :: v) hk.2 (by decide)
  rw [htw]
  have hdrop : (kt ++ ':' :: ' ' :: v).drop kt.length = ':' :: ' ' :: v :=
    List.drop_left kt _
  rw [hdrop]
  have hrun : wsRunLen (' ' :: v) = 1 := by
    show (if isJsWs ' ' then wsRunLen v + 1 else 0) = 1
    rw [if_pos (by decide), wsRunLen_zero v hh]
  show Option.map (fun kv => (kv.1, stripQuotes (jsTrim kv.2)))
      (if (':' : Char) = ':' then
        if (((' ' :: v).drop (wsRunLen (' ' :: v))).all fun d => !isLineTerm d) = true then
          some (kc :: kt, (' ' :: v).drop (wsRunLen (' ' :: v)))
        else Option.none
      else Option.none) = some (kc :: kt, v)
  rw [if_pos rfl, hrun, List.drop_succ_cons, List.drop_zero, if_pos hall]
  show some (kc :: kt, stripQuotes (jsTrim v)) = some (kc :: kt, v)
  rw [jsTrim_id v hh hl, stripQuotes_id v hq]

/-- Splitting a newline-free string on newlines gives that one line. -/
theorem splitOnChar_no (l : Str) (h : '\n' ∉ l) : splitOnChar '\n' l = [l] := by
  induction l with
  | nil => rfl
  | cons a t ih =>
    have ha : a ≠ '\n' := fun hx => h (hx ▸ List.mem_cons_self a t)
    rw [splitOnChar]
    rw [if_neg ha, ih (fun hx => h (List.mem_cons_of_mem a hx))]

/-- Splitting after a newline-free first line peels off that line. -/
theorem splitOnChar_app (l M : Str) (h : '\n' ∉ l) :
    splitOnChar '\n' (l ++ '\n' :: M) = l :: splitOnChar '\n' M := by
  induction l with
  | nil => simp [splitOnChar]
  | cons a t ih =>
    have ha : a ≠ '\n' := fun hx => h (hx ▸ List.mem_cons_self a t)
    show splitOnChar '\n' (a :: (t ++ '\n' :: M)) = (a :: t) :: splitOnChar '\n' M
    rw [splitOnChar]
    rw [if_neg ha, ih (fun hx => h (List.mem_cons_of_mem a hx))]

/-- Splitting a join of newline-free lines on newlines recovers the
    lines. -/
theorem splitOnChar_join (ls : List Str) (h : ∀ l ∈ ls, '\n' ∉ l) (hne : ls ≠ []) :
    splitOnChar '\n' (joinLines ls) = ls := by
  induction ls with
  | nil => exact absurd rfl hne
  | cons l r ih =>
    cases r with
    | nil => exact splitOnChar_no l (h l (List.mem_cons_self l []))
    | cons l2 r2 =>
      rw [joinLines_cons l (l2 :: r2) (by simp),
          splitOnChar_app l _ (h l (List.mem_cons_self l _)),
          ih (fun x hx => h x (List.mem_cons_of_mem l hx)) (by simp)]

/-- Upserting a fresh key appends. -/
theorem upsert_fresh (acc : List (Str × Str)) (k v : Str)
    (h : ∀ q ∈ acc, q.1 ≠ k) : upsert acc k v = acc ++ [(k, v)] := by
  induction acc with
  | nil => rfl
  | cons q r ih =>
    obtain ⟨k', v'⟩ := q
    have hk' : k' ≠ k := h (k', v') (List.mem_cons_self _ _)
    simp only [upsert, if_neg hk', List.cons_append]
    rw [ih (fun x hx => h x (List.mem_cons_of_mem _ hx))]

/-- A good key is non-empty with a word-character head. -/
theorem goodKey_parts (k : Str) (h : goodKey k = true) :
    k ≠ [] ∧ isWordChar (k.headD ' ') = true := by
  cases k with
  | nil => exact absurd h (by simp [goodKey])
  | cons c t =>
    simp only [goodKey, Bool.and_eq_true] at h
    exact ⟨by simp, by simpa using h.1⟩

/-- Serialized good lines contain no newline. -/
theorem lineOf_no_nl (p : Str × Str) (hk : goodKey p.1 = true)
    (hv : goodVal p.2 = true) : '\n' ∉ lineOf p := by
  obtain ⟨k, v⟩ := p
  intro hmem
  simp only [lineOf, List.mem_append, List.mem_cons] at hmem
  rcases hmem with hink | hrest
  · cases k with
    | nil => exact absurd hk (by simp [goodKey])
    | cons c t =>
      simp only [goodKey, Bool.and_eq_true, List.all_eq_true] at hk
      rcases List.mem_cons.mp hink with hc | ht
      · exact word_ne_nl hk.1 hc.symm
      · have := hk.2 '\n' ht
        simp only [Bool.or_eq_true, decide_eq_true_eq] at this
        rcases this with hw | hd
        · exact word_ne_nl hw rfl
        · exact absurd hd (by decide)
  · rcases hrest with hc | hrest
    · exact absurd hc (by decide)
    · rcases hrest with hc | hinv
      · exact absurd hc (by decide)
      · simp only [goodVal, Bool.and_eq_true, List.all_eq_true] at hv
        have := hv.1.1.1 '\n' hinv
        exact absurd this (by decide)

/-- The line loop of the parser, over serialized good lines with pairwise
    distinct keys not colliding with the accumulator, appends the fields. -/
theorem fold_lines_spec (T : List (Str × Str)) :
    ∀ acc : List (Str × Str),
      (∀ p ∈ T, goodKey p.1 = true) → (∀ p ∈ T, goodVal p.2 = true) →
      T.Pairwise (fun a b => a.1 ≠ b.1) →
      (∀ p ∈ T, ∀ q ∈ acc, q.1 ≠ p.1) →
      (T.map lineOf).foldl
        (fun acc line =>
          match procLine line with
          | some kv => upsert acc kv.1 kv.2
          | Option.none => acc) acc = acc ++ T := by
  induction T with
  | nil => intro acc _ _ _ _; simp
  | cons p T' ih =>
    intro acc hk hv hd hdis
    rcases List.pairwise_cons.mp hd with ⟨hph, hpt⟩
    simp only [List.map_cons, List.foldl_cons]
    have hstep :
        (match procLine (lineOf p) with
         | some kv => upsert acc kv.1 kv.2
         | Option.none => acc) = upsert acc p.1 p.2 := by
      rw [procLine_lineOf p (hk p (List.mem_cons_self p T')) (hv p (List.mem_cons_self p T'))]
    rw [hstep, upsert_fresh acc p.1 p.2 (fun q hq => hdis p (List.mem_cons_self p T') q hq)]
    rw [ih (acc ++ [(p.1, p.2)])
      (fun x hx => hk x (List.mem_cons_of_mem p hx))
      (fun x hx => hv x (List.mem_cons_of_mem p hx))
      hpt
      (by
        intro x hx q hq
        rcases List.mem_append.mp hq with hqa | hqp
        · exact hdis x (List.mem_cons_of_mem p hx) q hqa
        · rcases List.mem_singleton.mp hqp with rfl
          exact hph x hx)]
    simp

/-- C3 (counterexample).  The claim asserts the round trip for every
    newline-free header.  It fails for a value wrapped in single quotes:
    the serializer emits it verbatim but the parser strips the quotes, so
    `{a: 'x'}` comes back as `{a: x}`. -/
theorem c3_header_roundtrip_counterexample :
    (parseFrontmatter (buildFrontmatter
        [(toStr "a", FmVal.str (toStr "\x27x\x27"))])).1 ≠
      [(toStr "a", toStr "\x27x\x27")] ∧
    (parseFrontmatter (buildFrontmatter
        [(toStr "a", FmVal.str (toStr "\x27x\x27"))])).1 =
      [(toStr "a", toStr "x")] := by
  constructor
  · decide
  · decide

/-- C3 (amended).  `parseFrontmatter ∘ buildFrontmatter` is the identity on
    every header field list whose keys are non-empty, start with a word
    character, continue with word characters or hyphens, and are pairwise
    distinct, and whose values contain no line terminator (in particular no
    newline, as the claim already required), carry no leading or trailing
    whitespace, and are not wrapped in matching double or single quotes.
    The quote condition is forced by the counterexample; the others are
    forced by the same normalizations of the codec (trimming, whitespace
    eating, narrow key pattern). -/
theorem c3_header_roundtrip_amended (H : List (Str × Str))
    (hk : ∀ p ∈ H, goodKey p.1 = true) (hv : ∀ p ∈ H, goodVal p.2 = true)
    (hd : H.Pairwise (fun a b => a.1 ≠ b.1)) :
    (parseFrontmatter (buildFrontmatter
        (H.map (fun p => (p.1, FmVal.str p.2))))).1 = H := by
  cases H with
  | nil => decide
  | cons p T =>
    have hfields :
        ((p :: T).map (fun q => (q.1, FmVal.str q.2))).map (fun kv => buildLine kv.1 kv.2)
          = (p :: T).map lineOf := by
      rw [List.map_map]
      apply List.map_congr_left
      intro q hq
      show buildLine q.1 (FmVal.str q.2) = lineOf q
      unfold buildLine lineOf
      rw [renderVal_id q.2 (hv q hq)]
    have hlines : ∀ l ∈ (p :: T).map lineOf,
        l ≠ [] ∧ isWordChar (l.headD ' ') = true ∧ '\n' ∉ l := by
      intro l hl
      obtain ⟨q, hq, rfl⟩ := List.mem_map.mp hl
      obtain ⟨kne, khead⟩ := goodKey_parts q.1 (hk q hq)
      obtain ⟨kc, kt, hkq⟩ : ∃ c t, q.1 = c :: t := by
        cases hx : q.1 with
        | nil => exact absurd hx kne
        | cons c t => exact ⟨c, t, rfl⟩
      refine ⟨?_, ?_, lineOf_no_nl q (hk q hq) (hv q hq)⟩
      · show q.1 ++ ':' :: ' ' :: q.2 ≠ []
        rw [hkq]
        simp
      · show isWordChar ((q.1 ++ ':' :: ' ' :: q.2).headD ' ') = true
        rw [headD_append q.1 _ ' ' kne]
        exact khead
    have hbuild : buildFrontmatter ((p :: T).map (fun q => (q.1, FmVal.str q.2))) =
        toStr "---" ++ '\n' :: (joinLines ((p :: T).map lineOf) ++ nlDashes) := by
      unfold buildFrontmatter
      rw [hfields,
          joinLines_cons (toStr "---") ((p :: T).map lineOf ++ [toStr "---"]) (by simp),
          joinLines_append_single ((p :: T).map lineOf) (toStr "---") (by simp)]
      rfl
    rw [hbuild]
    have hXne : joinLines ((p :: T).map lineOf) ≠ [] := by
      obtain ⟨r, hr⟩ := joinLines_head_ex (lineOf p) (T.map lineOf)
      have hp := hlines (lineOf p) (by simp)
      rw [List.map_cons, hr]
      intro hx
      exact hp.1 (List.append_eq_nil.mp hx).1
    have hXhead : isWordChar ((joinLines ((p :: T).map lineOf)).headD ' ') = true := by
      obtain ⟨r, hr⟩ := joinLines_head_ex (lineOf p) (T.map lineOf)
      have hp := hlines (lineOf p) (by simp)
      rw [List.map_cons, hr, headD_append _ _ ' ' hp.1]
      exact hp.2.1
    have hXnl : nlOk (joinLines ((p :: T).map lineOf)) = true :=
      nlOk_join ((p :: T).map lineOf) hlines
    unfold parseFrontmatter
    rw [fmMatch_build _ hXne hXhead hXnl]
    show parseLines (joinLines ((p :: T).map lineOf)) = p :: T
    unfold parseLines
    rw [splitOnChar_join ((p :: T).map lineOf)
      (fun l hl => (hlines l hl).2.2) (by simp)]
    have := fold_lines_spec (p :: T) []
      hk hv hd (by intro x _ q hq; exact absurd hq (List.not_mem_nil q))
    simpa using this

/-- C3 (witness).  The amended round trip at a concrete two-field
    header. -/
theorem c3_header_roundtrip_witness :
    (parseFrontmatter (buildFrontmatter
        ([(toStr "name", toStr "x"), (toStr "description", toStr "A b.")].map
          (fun p => (p.1, FmVal.str p.2))))).1 =
      [(toStr "name", toStr "x"), (toStr "description", toStr "A b.")] := by
  exact c3_header_roundtrip_amended
    [(toStr "name", toStr "x"), (toStr "description", toStr "A b.")]
    (by decide) (by decide) (by decide)
